import Mathlib

/-
Verification of the nipy formula module
(src/nipy/algorithms/statistics/formula/formulae.py).

The development shallowly embeds the parts of the module that the checked
properties talk about:

1. a small symbolic-expression type modelling the sympy expressions that
   Term, FactorTerm and Formula manipulate (Term.__add__,
   FactorTerm.__mul__, Formula.__sub__, Formula.__eq__,
   Factor._getmaineffect);
2. the Factor constructor (Factor.__init__) over textual and numeric
   level lists;
3. the validation and short-circuit stage of Formula.design, over a
   schema-level view of formulas and tabular inputs;
4. the state evolution of Formula.design with respect to _setup_design
   (setup count and the random renaming offsets drawn);
5. the contrast derivation contrast_from_cols_or_rows, over exact
   rational matrices, with the external numeric primitives (pinv,
   matrix_rank, full_rank) characterised by their defining properties.

All definitions are translated from the Python source; the two places
marked "Modelled from the spec" stand for repository code that is not
part of the sources given here (nipy.algorithms.utils.matrices).
-/

namespace Formulae

/-! ### Symbolic expressions

A minimal model of the sympy expressions the module builds.  Distinct
constructors model distinct sympy classes: sympy structural equality
distinguishes `Symbol`, `Term` and `FactorTerm` instances even when
their display names coincide, and a `FactorTerm` displays as
`factorname_level`. -/

inductive SymExpr where
  | num (q : ℚ)
  | sym (name : String)
  | termSym (name : String)
  | factorTermSym (fname level : String)
  | add (a b : SymExpr)
  | mul (a b : SymExpr)
deriving DecidableEq

/-- `Term.__add__` (formulae.py lines 194-197): a term plus itself
returns itself, anything else falls through to ordinary symbolic
addition. -/
def termAdd (self other : SymExpr) : SymExpr :=
  if self = other then self else SymExpr.add self other

/-- `FactorTerm.__mul__` (formulae.py lines 261-266): a factor term
times itself returns itself, anything else falls through to ordinary
symbolic multiplication. -/
def factorTermMul (self other : SymExpr) : SymExpr :=
  if self = other then self else SymExpr.mul self other

/-- sympy subtraction `a - b`, which constructs `Add(a, Mul(-1, b))`;
used by `Factor._getmaineffect` for the deviation contrasts. -/
def symSub (a b : SymExpr) : SymExpr :=
  SymExpr.add a (SymExpr.mul (SymExpr.num (-1)) b)

/-- The term list built by `Factor.__init__` for textual levels:
one `FactorTerm(name, level)` per entry of the level sequence. -/
def factorTermsOf (name : String) (levels : List String) : List SymExpr :=
  levels.map (SymExpr.factorTermSym name)

/-- `Factor._getmaineffect` (formulae.py lines 1066-1071) for the
`main_effect` property, which always uses `ref=-1`: copy the term list,
remove the last entry, and map every remaining term `vv` to
`vv - ref_term`.  Indexing an empty term list raises, hence `Option`. -/
def mainEffect (ts : List SymExpr) : Option (List SymExpr) :=
  match ts.getLast? with
  | none => none
  | some refTerm => some (ts.dropLast.map fun vv => symSub vv refTerm)

/-- `Formula.__sub__` (formulae.py lines 636-677): keep every term of
`self` whose value is not in the set of terms of `other`, in order. -/
def formulaSub (a b : List SymExpr) : List SymExpr :=
  a.filter fun t => decide (t ∉ b)

/-- The instance state of a `Formula` that `Formula.__eq__` can see:
the term sequence, the coefficient-name character, and the lazily
populated coefficient cache (term, coefficient-name pairs). -/
structure FormulaS where
  terms : List SymExpr
  char : String
  coefsCache : Option (List (SymExpr × String))

/-- `Formula.__eq__` (formulae.py lines 706-711): coerce both sides to
arrays of terms, compare shapes, then compare elementwise. -/
def formulaEq (a b : FormulaS) : Bool :=
  (a.terms.length == b.terms.length) &&
    ((a.terms.zip b.terms).all fun p => p.1 == p.2)

/-! ### `Factor.__init__` (formulae.py lines 1028-1053)

A level sequence is either textual (numpy kind in `SOU`) or numeric.
For a numeric array the constructor demands that every value equal its
rounding, casts to integer, and renders each term name from the integer
value; for a textual array the levels are used as given.  In both cases
one `FactorTerm(name, level)` is created per entry of the sequence, in
sequence order. -/

structure FactorTermM where
  factor_name : String
  level : String
deriving DecidableEq

/-- `Factor.__init__`, textual branch: levels of string kind are kept
verbatim, one term per entry. -/
def factorInitStr (name : String) (levels : List String) : List FactorTermM :=
  levels.map fun l => ⟨name, l⟩

/-- `Factor.__init__`, numeric branch: every level must equal its
rounding (be integral); the array is then cast to integral type and one
term is created per entry with the integral level rendered into the
term name.  Non-integral values raise `ValueError`. -/
def factorInitNum (name : String) (levels : List ℚ) :
    Except String (List FactorTermM) :=
  if levels.all fun q => q.den == 1 then
    Except.ok (levels.map fun q => ⟨name, toString q.num⟩)
  else
    Except.error "levels must be strings or ints"

/-! ### Schema-level model of `Formula.design`

`Formula.design` (formulae.py lines 806-951) validates its inputs and
dispatches between a pure-intercept short circuit, a no-regressor
failure, and the general evaluation path.  The model below keeps the
data this stage reads: for every formula term, the set of Term-like
atoms inside it (as found by `getterms`) and the non-Term parameter
symbols that survive in the design expression (as found by
`getparams`); for a tabular input, its field names and row count.  The
numeric evaluation of the compiled expression list is performed by the
external sympy and numpy primitives and is kept abstract. -/

/-- A Term-like atom: a plain `Term` with its name, or a `FactorTerm`
with its factor name and level. -/
inductive TermAtom where
  | plain (name : String)
  | factor (fname level : String)
deriving DecidableEq

/-- The display name of an atom (`str(t)`); a factor term displays as
`factorname_level`. -/
def atomName : TermAtom → String
  | TermAtom.plain n => n
  | TermAtom.factor f l => f ++ "_" ++ l

/-- One entry of a Formula term sequence: the constant `sympy.Number(1)`
(the intercept), or a general expression carrying its Term-like atoms
and the parameter names that remain in the design expression. -/
inductive FTermM where
  | one
  | expr (atoms : List TermAtom) (params : List String)
deriving DecidableEq

def FTermM.atoms : FTermM → List TermAtom
  | FTermM.one => []
  | FTermM.expr as _ => as

def FTermM.paramsOf : FTermM → List String
  | FTermM.one => []
  | FTermM.expr _ ps => ps

structure FormulaM where
  fterms : List FTermM

/-- `getterms(self.mean)`: the distinct Term-like atoms appearing in the
formula terms.  (The source additionally sorts by sympy default sort
key; no checked property depends on the schema order, only on the
underlying set.) -/
def termAtoms (f : FormulaM) : List TermAtom :=
  (f.fterms.foldr (fun t acc => t.atoms ++ acc) []).dedup

/-- `getparams(self.design_expr)`: the distinct non-Term symbol names of
the design expression, which make up the `param` schema. -/
def paramNames (f : FormulaM) : List String :=
  (f.fterms.foldr (fun t acc => t.paramsOf ++ acc) []).dedup

/-- The `preterm` schema (formulae.py lines 789-795): for each Term-like
atom, the raw input field it is read from; factor terms collapse to the
name of the underlying factor column, and the list is deduplicated. -/
def pretermNames (f : FormulaM) : List String :=
  ((termAtoms f).map fun t =>
    match t with
    | TermAtom.plain n => n
    | TermAtom.factor fn _ => fn).dedup

/-- A structured (named-field) array as seen by `design`: its field
names and its row count. -/
structure ObsM where
  fields : List String
  nrows : ℕ

/-- The result of the modelled stage of `design`: the pure-intercept
short circuit as a single named field or a bare float vector, or the
hand-off to the general evaluation path (with the `term` schema the
path will evaluate). -/
inductive DesignResult where
  | namedCol (field : String) (col : List ℚ)
  | floatVec (col : List ℚ)
  | general (termFields : List String)
deriving DecidableEq

def isErr : Except String DesignResult → Bool
  | Except.error _ => true
  | Except.ok _ => false

/-- `set(fields).issuperset(names)`: every required name occurs among
the supplied field names. -/
def issuperset (names fields : List String) : Bool :=
  names.all fun n => fields.elem n

/-- A concrete non-integral rational, used as a level value. -/
def ratHalf : ℚ := { num := 1, den := 2 }

/-- `Formula.design` after input validation (formulae.py lines 852-862):
a term list equal to `[sympy.Number(1)]` short-circuits to a column of
ones over the row count, named `intercept` unless a float result was
requested; otherwise an empty `term` schema is an error; otherwise
evaluation proceeds on the `term` schema. -/
def designValidated (f : FormulaM) (obs : ObsM) (returnFloat : Bool) :
    Except String DesignResult :=
  if f.fterms = [FTermM.one] then
    Except.ok (if returnFloat then
        DesignResult.floatVec (List.replicate obs.nrows 1)
      else
        DesignResult.namedCol "intercept" (List.replicate obs.nrows 1))
  else if termAtoms f = [] then
    Except.error "none of the expressions in self.terms are Term instances; shape of resulting undefined"
  else
    Except.ok (DesignResult.general ((termAtoms f).map atomName))

/-- `Formula.design` validation stage (formulae.py lines 843-862): the
observation fields must be a superset of the `preterm` schema; if a
parameter record is supplied its fields must be a superset of the
`param` schema; then dispatch as in `designValidated`. -/
def design (f : FormulaM) (obs : ObsM) (param : Option ObsM)
    (returnFloat : Bool) : Except String DesignResult :=
  if issuperset (pretermNames f) obs.fields = false then
    Except.error "for term, expecting a recarray with dtype having the preterm names"
  else
    match param with
    | some pr =>
        if issuperset (paramNames f) pr.fields = false then
          Except.error "for param, expecting a recarray with dtype having the param names"
        else designValidated f obs returnFloat
    | none => designValidated f obs returnFloat

/-! ### The setup state of `Formula.design`

`Formula.design` (line 838) begins by calling `self._setup_design()`
unconditionally.  `_setup_design` (formulae.py lines 713-804) draws
`random_offset = np.random.randint(low=0, high=2**30)`, renames all
terms and parameters with placeholder symbols derived from that offset,
lambdifies the renamed design expression into `self._f`, and rebuilds
the `param`, `term` and `preterm` schemas.  The model records, per
Formula instance, how many times `_setup_design` has run and the
sequence of random offsets it has drawn; the random source is passed in
explicitly. -/

structure SetupState where
  setupCount : ℕ
  offsets : List ℕ
deriving DecidableEq

/-- One run of `_setup_design`: increment the run count and record the
drawn offset (`np.random.randint(0, 2**30)` reduces the supplied random
value modulo `2^30`). -/
def setupDesignStep (st : SetupState) (rnd : ℕ) : SetupState :=
  ⟨st.setupCount + 1, st.offsets ++ [rnd % 2 ^ 30]⟩

/-- The effect of one `design(...)` call on the setup state: `design`
calls `_setup_design` first, unconditionally. -/
def designStep (st : SetupState) (rnd : ℕ) : SetupState :=
  setupDesignStep st rnd

/-- A freshly constructed Formula: `__init__` performs no setup. -/
def freshFormulaState : SetupState := ⟨0, []⟩

/-! ### `contrast_from_cols_or_rows` (formulae.py lines 1143-1208)

The matrices are modelled exactly over `ℚ`.  The external numeric
primitives are characterised by their defining properties: `pinv`
satisfies the Moore-Penrose identity `D * pinv D * D = D`, and
`full_rank`, `matrix_rank` are captured by `IsFullRankBasis` below. -/

/-- The shape dispatch of `contrast_from_cols_or_rows` (lines
1190-1200): with `D` of shape `n, p` and `L` of shape `lr, lc`, raise
when `lr` differs from `n` and `lc` differs from `p`; otherwise the
column-space branch is taken exactly when `lr` equals `n`, and the
contrast-matrix branch otherwise. -/
inductive CfcrBranch where
  | err
  | colspace
  | rowcontrast
deriving DecidableEq

def cfcrBranch (lr lc n p : ℕ) : CfcrBranch :=
  if lr ≠ n ∧ lc ≠ p then CfcrBranch.err
  else if lr = n then CfcrBranch.colspace
  else CfcrBranch.rowcontrast

/-- Column-space branch raw contrast `C = dot(pseudo, L).T`. -/
def rawContrastCols {n p q : ℕ} (pseudo : Matrix (Fin p) (Fin n) ℚ)
    (L : Matrix (Fin n) (Fin q) ℚ) : Matrix (Fin q) (Fin p) ℚ :=
  (pseudo * L).transpose

/-- Contrast-matrix branch raw contrast `C = dot(pseudo, dot(D, L.T)).T`. -/
def rawContrastRows {n p q : ℕ} (D : Matrix (Fin n) (Fin p) ℚ)
    (pseudo : Matrix (Fin p) (Fin n) ℚ) (L : Matrix (Fin q) (Fin p) ℚ) :
    Matrix (Fin q) (Fin p) ℚ :=
  (pseudo * (D * L.transpose)).transpose

/-- `Lp = dot(D, C.T)` (line 1201). -/
def contrastLp {n p q : ℕ} (D : Matrix (Fin n) (Fin p) ℚ)
    (C : Matrix (Fin q) (Fin p) ℚ) : Matrix (Fin n) (Fin q) ℚ :=
  D * C.transpose

/-- The recomputed contrast after rank repair, `C = dot(pseudo, Lp).T`
(line 1207), where `Lp` has been replaced by a full-rank basis. -/
def repairedContrast {n p r : ℕ} (pseudo : Matrix (Fin p) (Fin n) ℚ)
    (B : Matrix (Fin n) (Fin r) ℚ) : Matrix (Fin r) (Fin p) ℚ :=
  (pseudo * B).transpose

/-- Modelled from the spec: `full_rank(Lp, Lp_rank)` and `matrix_rank`
come from nipy.algorithms.utils.matrices, which is not among the given
sources.  Per spec section 4.3 the repair step replaces `Lp` with a
full-rank basis of the same column space; `B` is such a basis when it
has full column rank and spans the column space of `Lp`. -/
def IsFullRankBasis {n q r : ℕ} (Lp : Matrix (Fin n) (Fin q) ℚ)
    (B : Matrix (Fin n) (Fin r) ℚ) : Prop :=
  B.rank = r ∧
    LinearMap.range B.mulVecLin = LinearMap.range Lp.mulVecLin

/-- The tail of `contrast_from_cols_or_rows` (lines 1201-1208): when the
numerical rank of `Lp` falls short of its column count (`needRepair`),
return the recomputed contrast from the full-rank basis `B`; otherwise
return the raw contrast unchanged.  The row count of the returned
contrast depends on the branch, hence the sigma type. -/
def cfcrRankRepair {n p q r : ℕ} (pseudo : Matrix (Fin p) (Fin n) ℚ)
    (Craw : Matrix (Fin q) (Fin p) ℚ) (needRepair : Bool)
    (B : Matrix (Fin n) (Fin r) ℚ) : (k : ℕ) × Matrix (Fin k) (Fin p) ℚ :=
  match needRepair with
  | true => ⟨r, repairedContrast pseudo B⟩
  | false => ⟨q, Craw⟩

/-! ### Helper lemmas -/

theorem issuperset_true_iff (A B : List String) :
    issuperset A B = true ↔ ∀ n ∈ A, n ∈ B := by
  simp [issuperset, List.all_eq_true, List.elem_iff]

theorem issuperset_false_iff (A B : List String) :
    issuperset A B = false ↔ ¬ ∀ n ∈ A, n ∈ B := by
  rw [Bool.eq_false_iff, ← issuperset_true_iff A B]

theorem mem_zip_self_eq (l : List SymExpr) :
    ∀ p : SymExpr × SymExpr, p ∈ l.zip l → p.1 = p.2 := by
  induction l with
  | nil => simp
  | cons a t ih =>
    intro p hp
    rw [List.zip_cons_cons, List.mem_cons] at hp
    rcases hp with h | h
    · rw [h]
    · exact ih p h

theorem zip_all_beq_iff (l₁ l₂ : List SymExpr) :
    ((l₁.length == l₂.length) && ((l₁.zip l₂).all fun p => p.1 == p.2)) = true ↔
      l₁ = l₂ := by
  rw [Bool.and_eq_true, beq_iff_eq, List.all_eq_true]
  constructor
  · rintro ⟨hlen, hall⟩
    induction l₁ generalizing l₂ with
    | nil =>
      cases l₂ with
      | nil => rfl
      | cons b t₂ => simp at hlen
    | cons a t ih =>
      cases l₂ with
      | nil => simp at hlen
      | cons b t₂ =>
        have h1 : a = b := by
          simpa using hall (a, b) (by rw [List.zip_cons_cons]; exact List.mem_cons_self _ _)
        have h2 : t = t₂ := by
          refine ih t₂ (by simpa using hlen) ?_
          intro p hp
          exact hall p (by rw [List.zip_cons_cons]; exact List.mem_cons_of_mem _ hp)
        rw [h1, h2]
  · rintro rfl
    exact ⟨rfl, fun p hp => by simpa using mem_zip_self_eq l₁ p hp⟩

/-! ### Claim theorems -/

/-- Claim C6: for every Term `t`, `t + t == t` while adding a different
expression is ordinary symbolic addition; for every FactorTerm `f`,
`f * f == f` while multiplying by a different expression is ordinary
symbolic multiplication. -/
theorem term_idempotence (t fn lv : String) (u : SymExpr) :
    termAdd (SymExpr.termSym t) (SymExpr.termSym t) = SymExpr.termSym t ∧
    (SymExpr.termSym t ≠ u →
      termAdd (SymExpr.termSym t) u = SymExpr.add (SymExpr.termSym t) u) ∧
    factorTermMul (SymExpr.factorTermSym fn lv) (SymExpr.factorTermSym fn lv) =
      SymExpr.factorTermSym fn lv ∧
    (SymExpr.factorTermSym fn lv ≠ u →
      factorTermMul (SymExpr.factorTermSym fn lv) u =
        SymExpr.mul (SymExpr.factorTermSym fn lv) u) := by
  refine ⟨by simp [termAdd], fun h => ?_, by simp [factorTermMul], fun h => ?_⟩
  · simp [termAdd, h]
  · simp [factorTermMul, h]

/-- Witness for C6: the idempotence and the ordinary-addition fallback
at concrete inputs. -/
theorem term_idempotence_witness :
    termAdd (SymExpr.termSym "x") (SymExpr.termSym "x") = SymExpr.termSym "x" ∧
    termAdd (SymExpr.termSym "x") (SymExpr.sym "z") =
      SymExpr.add (SymExpr.termSym "x") (SymExpr.sym "z") ∧
    factorTermMul (SymExpr.factorTermSym "a" "b") (SymExpr.factorTermSym "a" "b") =
      SymExpr.factorTermSym "a" "b" ∧
    factorTermMul (SymExpr.factorTermSym "a" "b") (SymExpr.sym "z") =
      SymExpr.mul (SymExpr.factorTermSym "a" "b") (SymExpr.sym "z") :=
  ⟨(term_idempotence "x" "a" "b" (SymExpr.sym "z")).1,
   (term_idempotence "x" "a" "b" (SymExpr.sym "z")).2.1 (by decide),
   (term_idempotence "x" "a" "b" (SymExpr.sym "z")).2.2.1,
   (term_idempotence "x" "a" "b" (SymExpr.sym "z")).2.2.2 (by decide)⟩

/-- Claim C5: `A - B` keeps exactly the terms of `A` not present in `B`,
in the order of `A` (a sublist); terms of `B` absent from `A` are
ignored; a term present in `B` loses all its occurrences in the result,
and a term absent from `B` keeps all of them. -/
theorem formula_sub_spec (a b : List SymExpr) :
    List.Sublist (formulaSub a b) a ∧
    (∀ t, t ∈ formulaSub a b ↔ t ∈ a ∧ t ∉ b) ∧
    (∀ t, t ∈ b → (formulaSub a b).count t = 0) ∧
    (∀ t, t ∉ b → (formulaSub a b).count t = a.count t) := by
  refine ⟨List.filter_sublist a, fun t => ?_, fun t ht => ?_, fun t ht => ?_⟩
  · simp [formulaSub, List.mem_filter]
  · rw [List.count_eq_zero]
    simp only [formulaSub, List.mem_filter, decide_eq_true_eq]
    exact fun h => h.2 ht
  · simpa [formulaSub] using List.count_filter (by simpa using ht)

/-- Witness for C5: subtraction at concrete term lists, removing both
occurrences of a duplicated term and ignoring a term absent from the
left operand. -/
theorem formula_sub_spec_witness :
    (formulaSub [SymExpr.termSym "x", SymExpr.termSym "y", SymExpr.termSym "x"]
        [SymExpr.termSym "x", SymExpr.termSym "w"]).count (SymExpr.termSym "x") = 0 ∧
    (formulaSub [SymExpr.termSym "x", SymExpr.termSym "y", SymExpr.termSym "x"]
        [SymExpr.termSym "x", SymExpr.termSym "w"]).count (SymExpr.termSym "y") = 1 :=
  ⟨(formula_sub_spec _ _).2.2.1 (SymExpr.termSym "x") (by decide),
   ((formula_sub_spec _ _).2.2.2 (SymExpr.termSym "y") (by decide)).trans (by decide)⟩

/-- Claim C10: Formula equality compares the coerced term arrays only,
shape first and then elementwise; it holds exactly when the term
sequences are equal, and neither the coefficient character nor the
cached coefficient map plays any role. -/
theorem formula_eq_spec (a b : FormulaS) (ts : List SymExpr) (c₁ c₂ : String)
    (m₁ m₂ : Option (List (SymExpr × String))) :
    (formulaEq a b = true ↔ a.terms = b.terms) ∧
    formulaEq ⟨ts, c₁, m₁⟩ ⟨ts, c₂, m₂⟩ = true := by
  constructor
  · exact zip_all_beq_iff a.terms b.terms
  · exact (zip_all_beq_iff ts ts).mpr rfl

/-- Claim C7: `main_effect` (reference `ref=-1`, the last term) of a
Factor with the given levels has one term per non-reference level, each
equal to that level term minus the reference term, in order; there are
`k - 1` of them for `k` levels. -/
theorem main_effect_spec (name : String) (ls : List String) (h : ls ≠ []) :
    mainEffect (factorTermsOf name ls) =
      some (ls.dropLast.map fun l =>
        symSub (SymExpr.factorTermSym name l)
          (SymExpr.factorTermSym name (ls.getLast h))) ∧
    (ls.dropLast.map fun l =>
        symSub (SymExpr.factorTermSym name l)
          (SymExpr.factorTermSym name (ls.getLast h))).length = ls.length - 1 := by
  constructor
  · unfold mainEffect factorTermsOf
    rw [List.getLast?_map, List.getLast?_eq_getLast_of_ne_nil h]
    simp [← List.map_dropLast, List.map_map, Function.comp]
  · simp [List.length_dropLast]

/-- Witness for C7: the main effect of a two-level factor is the single
deviation of the first level from the last. -/
theorem main_effect_spec_witness :
    mainEffect (factorTermsOf "g" ["u", "v"]) =
      some [symSub (SymExpr.factorTermSym "g" "u") (SymExpr.factorTermSym "g" "v")] := by
  rw [(main_effect_spec "g" ["u", "v"] (by decide)).1]
  rfl

/-- Counterexample to claim C3 as stated: `Factor('a', [2, 1, 1])`
creates three terms, `a_2, a_1, a_1`, in input order - not one
`FactorTerm` per distinct level and not sorted ascending (which would
give the two terms `a_1, a_2`). -/
theorem factor_levels_cex :
    factorInitNum "a" [2, 1, 1] =
      Except.ok [⟨"a", "2"⟩, ⟨"a", "1"⟩, ⟨"a", "1"⟩] ∧
    factorInitNum "a" [2, 1, 1] ≠
      Except.ok [⟨"a", "1"⟩, ⟨"a", "2"⟩] ∧
    ([(2 : ℚ), 1, 1].dedup).length = 2 := by
  refine ⟨by rfl, ?_, by rfl⟩
  intro hcontra
  have h1 : factorInitNum "a" [2, 1, 1] =
      Except.ok [⟨"a", "2"⟩, ⟨"a", "1"⟩, ⟨"a", "1"⟩] := by rfl
  rw [h1] at hcontra
  simp at hcontra

/-- Claim C3 amended: `Factor(name, levels)` creates one `FactorTerm`
per entry of `levels`, in input order, retaining duplicates and without
sorting (deduplication and ascending sorting happen only in
`Factor.fromcol` via `np.unique`); non-textual levels are coerced to
integral type and construction succeeds exactly when every non-textual
level is integral, raising `ValueError` otherwise. -/
theorem factor_init_amended (name : String) (levels : List ℚ)
    (strLevels : List String) :
    ((∃ ts, factorInitNum name levels = Except.ok ts) ↔
        ∀ q ∈ levels, q.den = 1) ∧
    (∀ ts, factorInitNum name levels = Except.ok ts →
        ts = levels.map fun q => ⟨name, toString q.num⟩) ∧
    ((¬ ∀ q ∈ levels, q.den = 1) →
        factorInitNum name levels = Except.error "levels must be strings or ints") ∧
    factorInitStr name strLevels = strLevels.map (fun l => ⟨name, l⟩) := by
  by_cases h : ∀ q ∈ levels, q.den = 1
  · have hb : (levels.all fun q => q.den == 1) = true := by
      rw [List.all_eq_true]; intro q hq; simpa using h q hq
    refine ⟨⟨fun _ => h, fun _ => ⟨_, by rw [factorInitNum, hb]; rfl⟩⟩, ?_, fun hc => absurd h hc, rfl⟩
    intro ts hts
    rw [factorInitNum, hb] at hts
    simpa using hts.symm
  · have hb : (levels.all fun q => q.den == 1) = false := by
      rw [← Bool.not_eq_true, List.all_eq_true]
      intro hc; exact h fun q hq => by simpa using hc q hq
    have herr : factorInitNum name levels =
        Except.error "levels must be strings or ints" := by
      rw [factorInitNum, hb]; rfl
    refine ⟨⟨fun ⟨ts, hts⟩ => ?_, fun hc => absurd hc h⟩, fun ts hts => ?_, fun _ => herr, rfl⟩
    · rw [herr] at hts; exact absurd hts (by simp)
    · rw [herr] at hts; exact absurd hts (by simp)

/-- Witness for C3 amended: a factor over integral levels `[2, 3]`
succeeds with exactly the coerced terms in order, and a non-integral
level list fails. -/
theorem factor_init_amended_witness :
    (∃ ts, factorInitNum "a" [2, 3] = Except.ok ts) ∧
    factorInitNum "a" [ratHalf] = Except.error "levels must be strings or ints" :=
  ⟨(factor_init_amended "a" [2, 3] []).1.mpr (by decide),
   (factor_init_amended "a" [ratHalf] []).2.2.1 (by decide)⟩

/-- Claim C4: for a Formula whose only term is the constant `1`,
`design` short-circuits to a column of ones of length the row count of
the observations, whatever the observation fields and whether or not a
parameter record is supplied; the column is bare when `return_float` is
set and otherwise a single structured field named `intercept`. -/
theorem design_intercept_shortcircuit (obs : ObsM) (param : Option ObsM)
    (returnFloat : Bool) :
    design ⟨[FTermM.one]⟩ obs param returnFloat =
      Except.ok (if returnFloat then
          DesignResult.floatVec (List.replicate obs.nrows 1)
        else
          DesignResult.namedCol "intercept" (List.replicate obs.nrows 1)) := by
  cases param <;>
    simp [design, designValidated, pretermNames, paramNames, termAtoms,
      FTermM.atoms, FTermM.paramsOf, issuperset]

/-- Claim C8: the validation stage of `design` fails exactly when the
observation fields miss part of the `preterm` schema, or a supplied
parameter record misses part of the `param` schema, or the term
sequence is not the pure intercept yet contains no Term-like atom; each
failure happens before any design matrix is produced. -/
theorem design_error_cases (f : FormulaM) (obs : ObsM) (param : Option ObsM)
    (returnFloat : Bool) :
    isErr (design f obs param returnFloat) = true ↔
      (¬ ∀ n ∈ pretermNames f, n ∈ obs.fields) ∨
      (∃ pr, param = some pr ∧ ¬ ∀ n ∈ paramNames f, n ∈ pr.fields) ∨
      (f.fterms ≠ [FTermM.one] ∧ termAtoms f = []) := by
  simp only [← issuperset_false_iff]
  cases param with
  | none =>
    cases hb1 : issuperset (pretermNames f) obs.fields with
    | false => simp [design, isErr, hb1]
    | true =>
      by_cases h2 : f.fterms = [FTermM.one]
      · simp [design, designValidated, isErr, hb1, h2]
      · by_cases h3 : termAtoms f = [] <;>
          simp [design, designValidated, isErr, hb1, h2, h3]
  | some pr =>
    cases hb1 : issuperset (pretermNames f) obs.fields with
    | false => simp [design, isErr, hb1]
    | true =>
      cases hbp : issuperset (paramNames f) pr.fields with
      | false => simp [design, isErr, hb1, hbp]
      | true =>
        by_cases h2 : f.fterms = [FTermM.one]
        · simp [design, designValidated, isErr, hb1, hbp, h2]
        · by_cases h3 : termAtoms f = [] <;>
            simp [design, designValidated, isErr, hb1, hbp, h2, h3]

/-- Witness for C8: a formula over the plain term `x` fails validation
against an observation array without an `x` field, and a formula with a
non-intercept term containing no Term-like atom fails on the
no-regressor case. -/
theorem design_error_cases_witness :
    isErr (design ⟨[FTermM.expr [TermAtom.plain "x"] []]⟩ ⟨["y"], 3⟩ none false) = true ∧
    isErr (design ⟨[FTermM.expr [] ["theta"]]⟩ ⟨["y"], 3⟩ none false) = true :=
  ⟨(design_error_cases ⟨[FTermM.expr [TermAtom.plain "x"] []]⟩ ⟨["y"], 3⟩ none false).mpr
      (Or.inl (by decide)),
   (design_error_cases ⟨[FTermM.expr [] ["theta"]]⟩ ⟨["y"], 3⟩ none false).mpr
      (Or.inr (Or.inr (by decide)))⟩

/-- Counterexample to claim C1 as stated: two `design()` calls on the
same fresh Formula run `_setup_design` twice, drawing a fresh random
offset each time (`5` then `7` here) - the setup is not performed only
once and the compiled evaluator is not reused. -/
theorem design_setup_cex :
    (designStep (designStep freshFormulaState 5) 7).setupCount = 2 ∧
    (designStep (designStep freshFormulaState 5) 7).offsets = [5, 7] ∧
    (designStep (designStep freshFormulaState 5) 7).setupCount ≠ 1 := by
  refine ⟨by rfl, by rfl, by decide⟩

/-- Claim C1 amended: `design()` calls `_setup_design()` unconditionally
on every invocation, so after any sequence of `design` calls on a fresh
Formula the setup has run once per call and one fresh random offset
(reduced modulo `2^30`) has been drawn per call; no compiled evaluator
is cached across calls. -/
theorem design_setup_amended (rnds : List ℕ) :
    (rnds.foldl designStep freshFormulaState).setupCount = rnds.length ∧
    (rnds.foldl designStep freshFormulaState).offsets =
      rnds.map (· % 2 ^ 30) := by
  suffices h : ∀ st : SetupState,
      (rnds.foldl designStep st).setupCount = st.setupCount + rnds.length ∧
      (rnds.foldl designStep st).offsets = st.offsets ++ rnds.map (· % 2 ^ 30) by
    simpa [freshFormulaState] using h freshFormulaState
  induction rnds with
  | nil => intro st; simp
  | cons r rs ih =>
    intro st
    have := ih (designStep st r)
    simp only [List.foldl_cons, List.map_cons] at this ⊢
    refine ⟨this.1.trans ?_, this.2.trans ?_⟩
    · simp [designStep, setupDesignStep, Nat.add_assoc, Nat.add_comm 1]
    · simp [designStep, setupDesignStep]

/-- Claim C9: `contrast_from_cols_or_rows` raises its shape-mismatch
error precisely when the row count of `L` differs from `n` and its
column count differs from `p`; when both dimensions match at once, the
column-space branch takes precedence over the contrast-matrix branch. -/
theorem cfcr_branch_spec (lr lc n p : ℕ) :
    (cfcrBranch lr lc n p = CfcrBranch.err ↔ lr ≠ n ∧ lc ≠ p) ∧
    (lr = n → cfcrBranch lr lc n p = CfcrBranch.colspace) ∧
    (lr ≠ n → lc = p → cfcrBranch lr lc n p = CfcrBranch.rowcontrast) := by
  by_cases h1 : lr = n <;> by_cases h2 : lc = p <;>
    simp [cfcrBranch, h1, h2]

/-- Witness for C9: with `D` of shape `2 x 3` and `L` of shape `2 x 3`,
both dimensions match and the column-space branch is chosen. -/
theorem cfcr_branch_witness :
    cfcrBranch 2 3 2 3 = CfcrBranch.colspace ∧
    cfcrBranch 5 7 2 3 = CfcrBranch.err :=
  ⟨(cfcr_branch_spec 2 3 2 3).2.1 rfl,
   (cfcr_branch_spec 5 7 2 3).1.mpr ⟨by decide, by decide⟩⟩

/-- If the column space of `B` lies inside the column space of `D` and
`pseudo` satisfies the Moore-Penrose identity, then `D * pseudo` fixes
`B`. -/
theorem colspace_fix {n p m : ℕ} (D : Matrix (Fin n) (Fin p) ℚ)
    (pseudo : Matrix (Fin p) (Fin n) ℚ) (B : Matrix (Fin n) (Fin m) ℚ)
    (hpinv : D * pseudo * D = D)
    (hsub : LinearMap.range B.mulVecLin ≤ LinearMap.range D.mulVecLin) :
    D * pseudo * B = B := by
  ext i j
  have hmem : B.mulVec (Pi.single j 1) ∈ LinearMap.range D.mulVecLin :=
    hsub ⟨Pi.single j 1, by simp [Matrix.mulVecLin_apply]⟩
  obtain ⟨x, hx⟩ := hmem
  have hDx : D.mulVec x = B.mulVec (Pi.single j 1) := by
    simpa [Matrix.mulVecLin_apply] using hx
  have h1 : (D * pseudo * B).mulVec (Pi.single j 1) =
      B.mulVec (Pi.single j 1) := by
    calc (D * pseudo * B).mulVec (Pi.single j 1)
        = (D * pseudo).mulVec (B.mulVec (Pi.single j 1)) :=
          (Matrix.mulVec_mulVec _ _ _).symm
      _ = (D * pseudo).mulVec (D.mulVec x) := by rw [hDx]
      _ = (D * pseudo * D).mulVec x := Matrix.mulVec_mulVec _ _ _
      _ = D.mulVec x := by rw [hpinv]
      _ = B.mulVec (Pi.single j 1) := hDx
  have h2 := congrFun h1 i
  simpa [Matrix.mulVec_single] using h2

/-- Claim C2: whatever raw contrast the branches produced, the result of
the rank-repair tail of `contrast_from_cols_or_rows` is a matrix `C`
with `rank (D * C.transpose)` equal to the row count of `C`.  The
branch condition of the source ties `needRepair` to the rank of `Lp`:
repair is skipped exactly when `Lp` already has full column rank, and
otherwise `B` is the full-rank basis `full_rank(Lp, rank Lp)` of the
column space of `Lp`; `pseudo` satisfies the Moore-Penrose identity of
`pinv(D)`. -/
theorem cfcr_full_rank {n p q r : ℕ} (D : Matrix (Fin n) (Fin p) ℚ)
    (pseudo : Matrix (Fin p) (Fin n) ℚ) (Craw : Matrix (Fin q) (Fin p) ℚ)
    (needRepair : Bool) (B : Matrix (Fin n) (Fin r) ℚ)
    (hpinv : D * pseudo * D = D)
    (hNo : needRepair = false → (contrastLp D Craw).rank = q)
    (hYes : needRepair = true → IsFullRankBasis (contrastLp D Craw) B) :
    Matrix.rank (D * ((cfcrRankRepair pseudo Craw needRepair B).2).transpose) =
      (cfcrRankRepair pseudo Craw needRepair B).1 := by
  cases needRepair with
  | false =>
    have h := hNo rfl
    simpa [cfcrRankRepair, contrastLp] using h
  | true =>
    obtain ⟨hrank, hspan⟩ := hYes rfl
    have hsub : LinearMap.range B.mulVecLin ≤ LinearMap.range D.mulVecLin := by
      rw [hspan]
      unfold contrastLp
      rw [Matrix.mulVecLin_mul]
      exact LinearMap.range_comp_le_range _ _
    have hfix : D * pseudo * B = B := colspace_fix D pseudo B hpinv hsub
    show Matrix.rank (D * (repairedContrast pseudo B).transpose) = r
    rw [repairedContrast, Matrix.transpose_transpose, ← Matrix.mul_assoc, hfix]
    exact hrank

/-- Witness for C2: with the one-by-one identity design, identity
pseudo-inverse, and the raw column-space contrast of the identity
candidate, no repair is needed and the returned contrast satisfies the
full-rank property. -/
theorem cfcr_full_rank_witness :
    Matrix.rank ((1 : Matrix (Fin 1) (Fin 1) ℚ) *
        ((cfcrRankRepair (1 : Matrix (Fin 1) (Fin 1) ℚ)
            (rawContrastCols (1 : Matrix (Fin 1) (Fin 1) ℚ)
              (1 : Matrix (Fin 1) (Fin 1) ℚ))
            false (1 : Matrix (Fin 1) (Fin 1) ℚ)).2).transpose) =
      (cfcrRankRepair (1 : Matrix (Fin 1) (Fin 1) ℚ)
          (rawContrastCols (1 : Matrix (Fin 1) (Fin 1) ℚ)
            (1 : Matrix (Fin 1) (Fin 1) ℚ))
          false (1 : Matrix (Fin 1) (Fin 1) ℚ)).1 :=
  cfcr_full_rank 1 1 (rawContrastCols 1 1) false 1
    (by simp)
    (fun _ => by
      simp [contrastLp, rawContrastCols, Matrix.transpose_one, Matrix.rank_one])
    (fun h => by simp at h)

end Formulae
